import Mathlib

/-!
Verification of the cryptML factorization / RSA key-generation core.

The definitions below are a shallow embedding of `src/factorization_methods.py`
and `src/modern_ciphers.py`.  Python integers become `Int` (or `Nat` where the
code only ever sees non-negative values); unbounded `while` loops become
fuel-indexed recursions whose `none` result means "the loop did not terminate
within the given fuel" (never a value the Python code itself produces);
`raise` becomes `Except.error`.  Helper modules of the repository that are not
under `src/` (`whole_number_operations`, `rational_number_operations`,
`number_theoretic_tools`) are modelled from the spec; each such definition
carries a doc comment starting with "Modelled from the spec".
-/

/-- Modelled from the spec: recursion core for `integer_sqrt` (the repository's
`whole_number_operations.integer_sqrt` is not under `src/`).  Spec 4.1:
`integer_sqrt(n)` is the largest integer `k` with `k^2 <= n`.  Digit-by-digit
recursion on `n / 4`, fuel-indexed so that it is kernel-executable. -/
def isqrtAux : Nat → Nat → Nat
  | 0, _ => 0
  | fuel+1, n =>
    if n = 0 then 0
    else
      let r := 2 * isqrtAux fuel (n / 4)
      if (r+1)*(r+1) ≤ n then r+1 else r

/-- Modelled from the spec: `integer_sqrt(n)` = largest `k` with `k^2 <= n`
(spec 4.1).  The fuel `n` is sufficient because `n < 4 ^ n`. -/
def integer_sqrt (n : Nat) : Nat := isqrtAux n n

/-- Modelled from the spec: `is_square` / `is_perfect_square` (spec 4.1). -/
def is_square (n : Nat) : Bool := integer_sqrt n * integer_sqrt n == n

theorem isqrtAux_bounds : ∀ (fuel n : Nat), n < 4 ^ fuel →
    isqrtAux fuel n * isqrtAux fuel n ≤ n ∧
      n < (isqrtAux fuel n + 1) * (isqrtAux fuel n + 1) := by
  intro fuel
  induction fuel with
  | zero =>
    intro n hn
    interval_cases n
    simp [isqrtAux]
  | succ fuel ih =>
    intro n hn
    by_cases h0 : n = 0
    · subst h0; simp [isqrtAux]
    · have hdiv : n / 4 < 4 ^ fuel := by
        rw [Nat.div_lt_iff_lt_mul (by norm_num)]
        calc n < 4 ^ (fuel + 1) := hn
        _ = 4 ^ fuel * 4 := by ring
      obtain ⟨hle, hlt⟩ := ih (n / 4) hdiv
      set s := isqrtAux fuel (n / 4) with hs
      have h4le : 4 * (s * s) ≤ n := by
        calc 4 * (s * s) ≤ 4 * (n / 4) := by omega
        _ ≤ n := Nat.mul_div_le n 4
      have h4lt : n < 4 * ((s+1) * (s+1)) := by
        have hmod : n % 4 < 4 := Nat.mod_lt _ (by norm_num)
        have hrec := Nat.div_add_mod n 4
        omega
      simp only [isqrtAux, if_neg h0]
      rw [← hs]
      by_cases hbr : (2 * s + 1) * (2 * s + 1) ≤ n
      · rw [if_pos hbr]
        constructor
        · exact hbr
        · calc n < 4 * ((s+1) * (s+1)) := h4lt
          _ = (2 * s + 1 + 1) * (2 * s + 1 + 1) := by ring
      · rw [if_neg hbr]
        constructor
        · calc 2 * s * (2 * s) = 4 * (s * s) := by ring
          _ ≤ n := h4le
        · omega

theorem integer_sqrt_le (n : Nat) : integer_sqrt n * integer_sqrt n ≤ n :=
  (isqrtAux_bounds n n (lt_of_lt_of_le (Nat.lt_two_pow n)
    (Nat.pow_le_pow_left (by norm_num) n))).1

theorem integer_sqrt_lt (n : Nat) :
    n < (integer_sqrt n + 1) * (integer_sqrt n + 1) :=
  (isqrtAux_bounds n n (lt_of_lt_of_le (Nat.lt_two_pow n)
    (Nat.pow_le_pow_left (by norm_num) n))).2

/-- `integer_sqrt` is the unique `k` with `k*k ≤ n < (k+1)*(k+1)`. -/
theorem integer_sqrt_unique {n k : Nat} (h1 : k * k ≤ n)
    (h2 : n < (k+1) * (k+1)) : integer_sqrt n = k := by
  have ha := integer_sqrt_le n
  have hb := integer_sqrt_lt n
  set s := integer_sqrt n
  rcases Nat.lt_trichotomy s k with h | h | h
  · exfalso
    have : (s + 1) * (s + 1) ≤ k * k := Nat.mul_le_mul h h
    omega
  · exact h
  · exfalso
    have : (k + 1) * (k + 1) ≤ s * s := Nat.mul_le_mul h h
    omega

theorem is_square_iff (n : Nat) : is_square n = true ↔ ∃ k, k * k = n := by
  constructor
  · intro h
    exact ⟨integer_sqrt n, by simpa [is_square] using h⟩
  · rintro ⟨k, rfl⟩
    have : integer_sqrt (k * k) = k :=
      integer_sqrt_unique (le_refl _) (by nlinarith)
    simp [is_square, this]

theorem is_square_sq (k : Nat) : is_square (k * k) = true :=
  (is_square_iff _).mpr ⟨k, rfl⟩

/-! ## Fermat factorization (`src/factorization_methods.py`, lines 21-62) -/

/-- The search loop of `fermat_factorization`: starting from the current value
of `a`, test whether `a*a - n` is a perfect square; if so return
`[a - integer_sqrt (a*a - n), a + integer_sqrt (a*a - n)]`, otherwise increment
`a`.  `fuel` bounds the number of loop iterations performed by this model;
`none` means the loop was still running after `fuel` tests. -/
def fermat_search (n a : Nat) : Nat → Option (List Nat)
  | 0 => none
  | fuel+1 =>
    if is_square (a * a - n) then
      some [a - integer_sqrt (a * a - n), a + integer_sqrt (a * a - n)]
    else
      fermat_search n (a + 1) fuel

/-- `fermat_factorization(n)` from `src/factorization_methods.py`.
Outer `none` = the unbounded search loop exceeded the model's fuel (the Python
loop would still be running); `Except.error` = the `ValueError` raised by the
input validation; otherwise the returned list. -/
def fermat_factorization (n : Int) (fuel : Nat) :
    Option (Except String (Option (List Int))) :=
  if n ≤ 1 ∨ n % 2 = 0 then
    some (.error "n should be an odd number greater than 1.")
  else
    let m := n.toNat
    if is_square m then
      some (.ok (some [(integer_sqrt m : Int), (integer_sqrt m : Int)]))
    else
      match fermat_search m (integer_sqrt (m - 1) + 1) fuel with
      | some l => some (.ok (some (l.map fun x => (x : Int))))
      | none => none

/-- `fermat_factorization(n)` when a `KeyboardInterrupt` fires during the
search loop: the handler at lines 57-59 prints a message and returns `None`.
`cancel_step` is the number of loop tests completed before the interrupt
fires; if the loop succeeds within that many tests the interrupt never
happens and the factors are returned. -/
def fermat_factorization_cancelled (n : Int) (cancel_step : Nat) :
    Except String (Option (List Int)) :=
  if n ≤ 1 ∨ n % 2 = 0 then
    .error "n should be an odd number greater than 1."
  else
    let m := n.toNat
    if is_square m then
      .ok (some [(integer_sqrt m : Int), (integer_sqrt m : Int)])
    else
      match fermat_search m (integer_sqrt (m - 1) + 1) cancel_step with
      | some l => .ok (some (l.map fun x => (x : Int)))
      | none => .ok none

/-- A divisor of a product of two primes is `1`, `p`, `q` or `p*q`. -/
theorem divisor_of_prime_mul {p q d : Nat} (hp : Nat.Prime p)
    (hq : Nat.Prime q) (hd : d ∣ p * q) :
    d = 1 ∨ d = p ∨ d = q ∨ d = p * q := by
  by_cases hpd : p ∣ d
  · obtain ⟨e, rfl⟩ := hpd
    have he : e ∣ q := by
      have h := (mul_dvd_mul_iff_left (a := p) hp.pos.ne').mp hd
      exact h
    rcases (Nat.Prime.eq_one_or_self_of_dvd hq e he) with h1 | h1
    · right; left; simp [h1]
    · right; right; right; rw [h1]
  · have hcop : Nat.Coprime d p := (hp.coprime_iff_not_dvd.mpr hpd).symm
    have hdq : d ∣ q := hcop.dvd_of_dvd_mul_left hd
    rcases Nat.Prime.eq_one_or_self_of_dvd hq d hdq with h1 | h1
    · left; exact h1
    · right; right; left; exact h1

/-- For an odd semiprime `n = p*q` (`p < q`), no `a` strictly between
`integer_sqrt (n-1)` and `(p+q)/2` makes `a*a - n` a perfect square. -/
theorem fermat_no_early_hit (p q s n a : Nat) (hp : Nat.Prime p)
    (hq : Nat.Prime q) (hpq : p < q) (hp3 : 3 ≤ p) (hq3 : 3 ≤ q)
    (hn : n = p * q) (h2s : 2 * s = p + q)
    (ha_lo : integer_sqrt (n - 1) < a) (ha_hi : a < s) :
    is_square (a * a - n) = false := by
  by_contra hcon
  have hsq : is_square (a * a - n) = true := by
    cases h : is_square (a * a - n) with
    | false => exact absurd h hcon
    | true => rfl
  obtain ⟨b, hb⟩ := (is_square_iff _).mp hsq
  have hn9 : 9 ≤ n := by subst hn; nlinarith
  -- a*a ≥ n because a > integer_sqrt (n-1)
  have haan : n ≤ a * a := by
    have h1 : n - 1 < (integer_sqrt (n - 1) + 1) * (integer_sqrt (n - 1) + 1) :=
      integer_sqrt_lt (n - 1)
    have h2 : (integer_sqrt (n - 1) + 1) * (integer_sqrt (n - 1) + 1) ≤ a * a :=
      Nat.mul_le_mul ha_lo ha_lo
    omega
  have hbn : b * b + n = a * a := by omega
  have hba : b ≤ a := by
    by_contra hba
    have hk : (a + 1) * (a + 1) ≤ b * b := Nat.mul_le_mul (by omega) (by omega)
    have hx : (a + 1) * (a + 1) = a * a + 2 * a + 1 := by ring
    omega
  obtain ⟨c, hc⟩ : ∃ c, b + c = a := ⟨a - b, by omega⟩
  have hfact : c * (2 * b + c) = n := by nlinarith
  have hdvd : c ∣ n := Dvd.intro _ hfact
  rcases divisor_of_prime_mul hp hq (hn ▸ hdvd) with h1 | h1 | h1 | h1
  · -- c = 1 : then 2a = n+1, but 2a < p+q ≤ n-3
    have hn1 : 2 * b + 1 = n := by
      have := hfact
      rw [h1] at this
      omega
    have hlt : p + q + 3 ≤ p * q := by nlinarith
    omega
  · -- c = p : then 2b + p = q, so a = (p+q)/2 = s
    have hcq : c * (2 * b + c) = c * q := by rw [hfact, hn, h1]
    have h2 : 2 * b + c = q := Nat.eq_of_mul_eq_mul_left (by omega) hcq
    omega
  · -- c = q : then 2b + q = p < q, impossible
    have hcq : c * (2 * b + c) = c * p := by rw [hfact, hn, h1]; ring
    have h2 : 2 * b + c = p := Nat.eq_of_mul_eq_mul_left (by omega) hcq
    omega
  · -- c = n : then 2b + n = 1, impossible
    have hc9 : 9 ≤ c := by omega
    have hcq : c * (2 * b + c) = c * 1 := by rw [hfact, hn, h1, Nat.mul_one]
    have h2 : 2 * b + c = 1 := Nat.eq_of_mul_eq_mul_left (by omega) hcq
    omega

/-- The Fermat search loop, started at `a ≤ s` with no perfect-square value
of `x*x - n` for `a ≤ x < s` and `s*s - n = t*t`, stops at `s` and returns
`[s - t, s + t]`. -/
theorem fermat_search_reaches (n s t : Nat) (hs_sq : s * s = n + t * t) :
    ∀ (fuel a : Nat), a ≤ s → s - a < fuel →
      (∀ x, a ≤ x → x < s → is_square (x * x - n) = false) →
      fermat_search n a fuel = some [s - t, s + t] := by
  intro fuel
  induction fuel with
  | zero => intro a _ h _; omega
  | succ fuel ih =>
    intro a ha hfuel hno
    by_cases heq : a = s
    · subst heq
      have hdiff : a * a - n = t * t := by omega
      have hsqt : is_square (a * a - n) = true := by rw [hdiff]; exact is_square_sq t
      have hisq : integer_sqrt (a * a - n) = t := by
        rw [hdiff]
        exact integer_sqrt_unique (le_refl _) (by nlinarith)
      simp [fermat_search, hsqt, hisq]
    · have halt : a < s := by omega
      have hfalse : is_square (a * a - n) = false := hno a (le_refl a) halt
      rw [fermat_search, if_neg (by simp [hfalse])]
      exact ih (a + 1) (by omega) (by omega)
        (fun x hx1 hx2 => hno x (by omega) hx2)

/-- C1: for every odd composite `n = p*q` with `p` and `q` prime (taking
`p ≤ q`), `fermat_factorization n` terminates within `(p+q)/2` loop tests and
returns the unordered pair `{p, q}` as the list `[p, q]`, whose product is
`n`; `n = 8051` with `p = 83`, `q = 97` is an instance. -/
theorem fermat_factorization_semiprime (p q fuel : Nat)
    (hp : Nat.Prime p) (hq : Nat.Prime q) (hpq : p ≤ q) (hodd : Odd (p * q))
    (hfuel : (p + q) / 2 ≤ fuel) :
    fermat_factorization ((p * q : Nat) : Int) fuel
      = some (.ok (some [(p : Int), (q : Int)])) := by
  have hmod : (p * q) % 2 = 1 := Nat.odd_iff.mp hodd
  have hop : p % 2 = 1 := by
    rcases Nat.mod_two_eq_zero_or_one p with h | h
    · exfalso
      have hm := Nat.mul_mod p q 2
      rw [h] at hm
      simp at hm
      omega
    · exact h
  have hoq : q % 2 = 1 := by
    rcases Nat.mod_two_eq_zero_or_one q with h | h
    · exfalso
      have hm := Nat.mul_mod p q 2
      rw [h] at hm
      simp at hm
      omega
    · exact h
  have hp3 : 3 ≤ p := by have := hp.two_le; omega
  have hq3 : 3 ≤ q := by have := hq.two_le; omega
  have hn9 : 9 ≤ p * q := by calc (9 : Nat) = 3 * 3 := by norm_num
                                 _ ≤ p * q := Nat.mul_le_mul hp3 hq3
  have hval : ¬(((p * q : Nat) : Int) ≤ 1 ∨ ((p * q : Nat) : Int) % 2 = 0) := by
    omega
  rcases eq_or_lt_of_le hpq with heq | hlt
  · -- p = q : n is a perfect square, handled by the early return
    subst heq
    have hsq : is_square (p * p) = true := is_square_sq p
    have hisq : integer_sqrt (p * p) = p :=
      integer_sqrt_unique (le_refl _) (by nlinarith)
    simp only [fermat_factorization, Int.toNat_natCast]
    rw [if_neg hval, if_pos hsq, hisq]
  · -- p < q : the search loop stops exactly at a = (p+q)/2
    obtain ⟨t, hq_eq, ht1⟩ : ∃ t, q = p + 2 * t ∧ 1 ≤ t :=
      ⟨(q - p) / 2, by omega, by omega⟩
    have hs_sq : (p + t) * (p + t) = p * q + t * t := by rw [hq_eq]; ring
    have hnsq : is_square (p * q) = false := by
      cases hcase : is_square (p * q) with
      | false => rfl
      | true =>
        exfalso
        obtain ⟨k, hk⟩ := (is_square_iff _).mp hcase
        have hpk : p ∣ k := by
          have h2 : p ∣ k ^ 2 := by
            rw [pow_two, hk]
            exact Dvd.intro q rfl
          exact hp.dvd_of_dvd_pow h2
        obtain ⟨m, rfl⟩ := hpk
        have h2 : m * m * p = q := by
          apply Nat.eq_of_mul_eq_mul_left hp.pos
          rw [← hk]; ring
        have h3 : p ∣ q := ⟨m * m, by rw [← h2]; ring⟩
        rcases hq.eq_one_or_self_of_dvd p h3 with h4 | h4 <;> omega
    have hstart : integer_sqrt (p * q - 1) < p + t := by
      by_contra hcon
      have h1 : (p + t) * (p + t) ≤
          integer_sqrt (p * q - 1) * integer_sqrt (p * q - 1) :=
        Nat.mul_le_mul (by omega) (by omega)
      have h2 := integer_sqrt_le (p * q - 1)
      omega
    have hloop : fermat_search (p * q) (integer_sqrt (p * q - 1) + 1) fuel
        = some [(p + t) - t, (p + t) + t] := by
      apply fermat_search_reaches (p * q) (p + t) t hs_sq fuel
        (integer_sqrt (p * q - 1) + 1) (by omega) (by omega)
      intro x hx1 hx2
      exact fermat_no_early_hit p q (p + t) (p * q) x hp hq hlt hp3 hq3 rfl
        (by omega) (by omega) hx2
    simp only [fermat_factorization, Int.toNat_natCast]
    rw [if_neg hval]
    simp only [hnsq, Bool.false_eq_true, if_false, hloop]
    have h1 : (p + t) - t = p := by omega
    have h2 : (p + t) + t = q := by omega
    rw [h1, h2]
    rfl

/-- Witness for C1: `8051 = 83 * 97` and `fermat_factorization` returns
`[83, 97]`. -/
theorem fermat_factorization_8051 :
    fermat_factorization 8051 90 = some (.ok (some [83, 97])) := by
  have h := fermat_factorization_semiprime 83 97 90 (by decide) (by decide)
    (by decide) (by decide) (by decide)
  exact h

/-- C8: every integer input `n ≤ 1` or even is rejected by
`fermat_factorization` with the `ValueError` raised by its input validation
(lines 42-43), before any search work; in particular `1`, `4` and `-7`. -/
theorem fermat_factorization_rejects (n : Int) (fuel : Nat)
    (h : n ≤ 1 ∨ n % 2 = 0) :
    fermat_factorization n fuel
      = some (.error "n should be an odd number greater than 1.") := by
  simp only [fermat_factorization, if_pos h]

/-- Witness for C8: the three boundary inputs of the claim. -/
theorem fermat_factorization_rejects_witness :
    fermat_factorization 1 0
        = some (.error "n should be an odd number greater than 1.") ∧
      fermat_factorization 4 0
        = some (.error "n should be an odd number greater than 1.") ∧
      fermat_factorization (-7) 0
        = some (.error "n should be an odd number greater than 1.") :=
  ⟨fermat_factorization_rejects 1 0 (by decide),
   fermat_factorization_rejects 4 0 (by decide),
   fermat_factorization_rejects (-7) 0 (by decide)⟩

/-- C9 (amended): when the Fermat search is interrupted before it succeeds,
the `except KeyboardInterrupt` handler returns `None` — the very value used
elsewhere as the "no factor found" outcome — so cancellation is NOT a
distinct outcome. -/
theorem fermat_factorization_cancelled_returns_none (n : Int) (k : Nat)
    (hv : ¬(n ≤ 1 ∨ n % 2 = 0)) (hsq : is_square n.toNat = false)
    (hns : fermat_search n.toNat (integer_sqrt (n.toNat - 1) + 1) k = none) :
    fermat_factorization_cancelled n k = .ok none := by
  simp only [fermat_factorization_cancelled, if_neg hv]
  simp only [hsq, Bool.false_eq_true, if_false, hns]

/-- Witness for the amended C9. -/
theorem fermat_factorization_cancelled_returns_none_witness :
    fermat_factorization_cancelled 8051 0 = .ok none :=
  fermat_factorization_cancelled_returns_none 8051 0 (by decide) (by decide) rfl

/-! ## Continued-fraction engine and Wiener-style attack
(`src/factorization_methods.py`, lines 4-19) -/

/-- Modelled from the spec: Euclidean-step recursion producing the
continued-fraction term sequence of `num/den` (spec 4.2:
`expand(numerator, denominator)`); fuel-indexed, Python `//` and `%`
are floor division and floor modulus. -/
def cf_expansion_aux : Nat → Int → Int → List Int
  | 0, _, _ => []
  | fuel+1, num, den =>
    if den = 0 then []
    else Int.fdiv num den :: cf_expansion_aux fuel den (Int.fmod num den)

/-- Modelled from the spec: `cf_expansion(e, N)` = the continued-fraction
term sequence of `e/N` (spec 4.2). -/
def cf_expansion (e N : Int) : List Int :=
  cf_expansion_aux (e.natAbs + N.natAbs + 1) e N

/-- Modelled from the spec: convergent recurrence
`h_k = a_k*h_(k-1) + h_(k-2)`, `k_k = a_k*k_(k-1) + k_(k-2)` seeded with
`h_(-1)=1, h_(-2)=0, k_(-1)=0, k_(-2)=1` (spec 4.2). -/
def get_cf_convergents_aux : List Int → Int → Int → Int → Int → List (Int × Int)
  | [], _, _, _, _ => []
  | a :: rest, h1, h2, k1, k2 =>
    (a * h1 + h2, a * k1 + k2) ::
      get_cf_convergents_aux rest (a * h1 + h2) h1 (a * k1 + k2) k1

/-- Modelled from the spec: `get_cf_convergents(terms)` (spec 4.2). -/
def get_cf_convergents (terms : List Int) : List (Int × Int) :=
  get_cf_convergents_aux terms 1 0 0 1

/-- The Python error values the embedded functions can raise: `ValueError`
from input validation, `NameError` from evaluating a name the module never
defined or imported, `UnboundLocalError` from reading a local that no
branch assigned, and the failure of `find_modular_inverse` (spec 4.1:
`NoInverseError`). -/
inductive PyError where
  | valueError : String → PyError
  | unboundLocalError : String → PyError
  | nameError : String → PyError
  | noInverseError : PyError
deriving DecidableEq

/-- The convergent loop of `continued_fraction_factorization`
(lines 11-17).  A convergent whose numerator is `0` is skipped
(lines 12-13).  For the first convergent with nonzero numerator, line 14
evaluates the name `integer_quadratic_formula`; that name is neither
defined in `factorization_methods.py` nor among its imports (lines 1-2),
so Python raises `NameError` there.  Only when every convergent has
numerator `0` does the loop exhaust and return `None`. -/
def cff_loop : List (Int × Int) → Except PyError (Option (List Int))
  | [] => .ok none
  | c :: rest =>
    if c.1 = 0 then cff_loop rest
    else .error (.nameError "integer_quadratic_formula")

/-- `continued_fraction_factorization(e, N)` from
`src/factorization_methods.py` (lines 4-19): the convergents of `e/N` are
computed (line 9, via the imported continued-fraction engine), then the
loop over them either raises `NameError` at line 14 (first nonzero
numerator) or falls through to `return None` ("no factor found"). -/
def continued_fraction_factorization (e N : Int) :
    Except PyError (Option (List Int)) :=
  cff_loop (get_cf_convergents (cf_expansion e N))

theorem cff_loop_all_zero :
    ∀ l : List (Int × Int), (∀ c ∈ l, c.1 = 0) → cff_loop l = .ok none := by
  intro l
  induction l with
  | nil => intro _; rfl
  | cons c rest ih =>
    intro h
    have hc : c.1 = 0 := h c (by simp)
    simp only [cff_loop, if_pos hc]
    exact ih (fun x hx => h x (by simp [hx]))

theorem cff_loop_name_error :
    ∀ l : List (Int × Int), (∃ c ∈ l, c.1 ≠ 0) →
      cff_loop l = .error (.nameError "integer_quadratic_formula") := by
  intro l
  induction l with
  | nil => rintro ⟨c, hc, _⟩; simp at hc
  | cons c rest ih =>
    rintro ⟨c0, hc0, hne⟩
    by_cases hz : c.1 = 0
    · simp only [cff_loop, if_pos hz]
      apply ih
      refine ⟨c0, ?mem, hne⟩
      case mem =>
        rcases List.mem_cons.mp hc0 with h1 | h1
        · exfalso; rw [h1] at hne; exact hne hz
        · exact h1
    · simp only [cff_loop, if_neg hz]

/-- C9 (counterexample): cancelling the Fermat search on 8051 before the
first test returns the value `None` — exactly the value the engine
returns as "no factor found", shown here on
`continued_fraction_factorization(0, 5)`, whose single convergent `0/1`
has numerator `0` so the real code reaches its `return None`.  The
cancelled outcome is therefore not a distinct, distinguishable outcome. -/
theorem fermat_cancelled_not_distinct :
    fermat_factorization_cancelled 8051 0 = Except.ok none ∧
      continued_fraction_factorization 0 5 = Except.ok none := ⟨rfl, rfl⟩

/-- C3 (code_bug evaluation): `continued_fraction_factorization` does not
behave as claimed — because line 14 references the unresolvable name
`integer_quadratic_formula`, the call `(e, N) = (107, 187)` (convergents
`0/1, 1/1, 1/2, 3/5, 4/7, 107/187`) raises `NameError` at its first
nonzero-numerator convergent instead of testing the quadratic, and only a
degenerate call such as `(0, 5)` (all numerators zero) reaches the
"no factor found" `None`. -/
theorem continued_fraction_factorization_raises :
    continued_fraction_factorization 107 187
        = .error (.nameError "integer_quadratic_formula") ∧
      continued_fraction_factorization 0 5 = .ok none := ⟨rfl, rfl⟩

/-! ## Pollard's p-1 factorization (`src/factorization_methods.py`,
lines 74-89) -/

/-- Modelled from the spec: `fast_powering_algorithm(base, exponent,
modulus)` = `base ^ exponent mod modulus`, exponentiation by squaring
(spec 4.1). -/
def fast_powering_algorithm (b : Int) (e : Nat) (m : Int) : Int := (b ^ e) % m

/-- Modelled from the spec: Euclidean greatest common divisor (spec 4.1);
non-negative result as Python's repeated-remainder loop yields for a
positive second argument. -/
def greatest_common_divisor (a b : Int) : Int := (Int.gcd a b : Int)

/-- Modelled from the spec: absolute value (spec 4.1). -/
def absolute_value (a : Int) : Int := |a|

/-- The `for i in range(2, 1000000)` loop of
`pollard_p_minus_one_factorization`, with current base value `a` and
current exponent `i`; `fuel` = remaining iterations. -/
def ppm1_loop (N a : Int) (i : Nat) : Nat → Option (List Int)
  | 0 => none
  | fuel+1 =>
    let a2 := fast_powering_algorithm a i N
    let d := greatest_common_divisor (a2 - 1) N
    if 1 < d ∧ d < N then some [d, Int.fdiv N d]
    else ppm1_loop N a2 (i+1) fuel

/-- `pollard_p_minus_one_factorization(N)`: base `a = 2`, exponents
`i = 2, ..., 999999` (998 iterations short of 10^6: `range(2, 1000000)`
has 999998 elements); `none` is the Python `None` printed as "did not
succeed". -/
def pollard_p_minus_one_factorization (N : Int) : Option (List Int) :=
  ppm1_loop N 2 2 999998

/-- The sequence of base values produced from start state `(a, i)`:
entry `k` is the value of `a` after `k+1` loop updates. -/
def ppm1_seq (N a : Int) (i : Nat) : Nat → Int
  | 0 => fast_powering_algorithm a i N
  | k+1 => fast_powering_algorithm (ppm1_seq N a i k) (i + k + 1) N

/-- Base values of the actual run: `ppm1_a N k` is `a` after the loop body
ran for `i = 2, ..., 2+k`. -/
def ppm1_a (N : Int) : Nat → Int := ppm1_seq N 2 2

/-- The gcd tested at step `k` of the actual run. -/
def ppm1_d (N : Int) (k : Nat) : Int :=
  greatest_common_divisor (ppm1_a N k - 1) N

theorem ppm1_seq_shift (N a : Int) (i : Nat) :
    ∀ k, ppm1_seq N a i (k+1)
      = ppm1_seq N (fast_powering_algorithm a i N) (i+1) k := by
  intro k
  induction k with
  | zero => rfl
  | succ k ih =>
    show fast_powering_algorithm (ppm1_seq N a i (k+1)) (i + (k+1) + 1) N
      = fast_powering_algorithm
          (ppm1_seq N (fast_powering_algorithm a i N) (i+1) k) ((i+1) + k + 1) N
    rw [ih]
    have harith : i + (k+1) + 1 = (i+1) + k + 1 := by omega
    rw [harith]

theorem ppm1_loop_found (N : Int) :
    ∀ (fuel : Nat) (a : Int) (i k : Nat), k < fuel →
      (∀ j, j < k →
        ¬(1 < greatest_common_divisor (ppm1_seq N a i j - 1) N ∧
          greatest_common_divisor (ppm1_seq N a i j - 1) N < N)) →
      1 < greatest_common_divisor (ppm1_seq N a i k - 1) N →
      greatest_common_divisor (ppm1_seq N a i k - 1) N < N →
      ppm1_loop N a i fuel
        = some [greatest_common_divisor (ppm1_seq N a i k - 1) N,
            Int.fdiv N (greatest_common_divisor (ppm1_seq N a i k - 1) N)] := by
  intro fuel
  induction fuel with
  | zero => intro a i k hk; exact absurd hk (Nat.not_lt_zero k)
  | succ fuel ih =>
    intro a i k hk hprev h1 h2
    cases k with
    | zero =>
      simp only [ppm1_seq] at h1 h2 ⊢
      simp only [ppm1_loop]
      rw [if_pos (And.intro h1 h2)]
    | succ k =>
      have h0 := hprev 0 (Nat.succ_pos k)
      simp only [ppm1_seq] at h0
      have hprev2 : ∀ j, j < k →
          ¬(1 < greatest_common_divisor
              (ppm1_seq N (fast_powering_algorithm a i N) (i+1) j - 1) N ∧
            greatest_common_divisor
              (ppm1_seq N (fast_powering_algorithm a i N) (i+1) j - 1) N < N) := by
        intro j hj
        have h := hprev (j+1) (by omega)
        rwa [ppm1_seq_shift N a i j] at h
      have h1b : 1 < greatest_common_divisor
          (ppm1_seq N (fast_powering_algorithm a i N) (i+1) k - 1) N := by
        rwa [ppm1_seq_shift N a i k] at h1
      have h2b : greatest_common_divisor
          (ppm1_seq N (fast_powering_algorithm a i N) (i+1) k - 1) N < N := by
        rwa [ppm1_seq_shift N a i k] at h2
      have hres := ih (fast_powering_algorithm a i N) (i+1) k (by omega)
        hprev2 h1b h2b
      simp only [ppm1_loop]
      rw [if_neg h0, ppm1_seq_shift N a i k]
      exact hres

theorem ppm1_loop_exhausted (N : Int) :
    ∀ (fuel : Nat) (a : Int) (i : Nat),
      (∀ k, k < fuel →
        ¬(1 < greatest_common_divisor (ppm1_seq N a i k - 1) N ∧
          greatest_common_divisor (ppm1_seq N a i k - 1) N < N)) →
      ppm1_loop N a i fuel = none := by
  intro fuel
  induction fuel with
  | zero => intro a i _; rfl
  | succ fuel ih =>
    intro a i h
    have h0 := h 0 (Nat.succ_pos fuel)
    simp only [ppm1_seq] at h0
    simp only [ppm1_loop]
    rw [if_neg h0]
    apply ih
    intro k hk
    have hh := h (k+1) (by omega)
    rwa [ppm1_seq_shift N a i k] at hh

theorem ppm1_loop_sound (N : Int) :
    ∀ (fuel : Nat) (a : Int) (i : Nat) (res : List Int),
      ppm1_loop N a i fuel = some res →
      ∃ k, k < fuel ∧
        (∀ j, j < k →
          ¬(1 < greatest_common_divisor (ppm1_seq N a i j - 1) N ∧
            greatest_common_divisor (ppm1_seq N a i j - 1) N < N)) ∧
        1 < greatest_common_divisor (ppm1_seq N a i k - 1) N ∧
        greatest_common_divisor (ppm1_seq N a i k - 1) N < N ∧
        res = [greatest_common_divisor (ppm1_seq N a i k - 1) N,
          Int.fdiv N (greatest_common_divisor (ppm1_seq N a i k - 1) N)] := by
  intro fuel
  induction fuel with
  | zero => intro a i res h; simp [ppm1_loop] at h
  | succ fuel ih =>
    intro a i res h
    simp only [ppm1_loop] at h
    by_cases hc : 1 < greatest_common_divisor
          (fast_powering_algorithm a i N - 1) N ∧
        greatest_common_divisor (fast_powering_algorithm a i N - 1) N < N
    · rw [if_pos hc] at h
      refine ⟨0, Nat.succ_pos fuel, by omega, ?g1, ?g2, ?g3⟩
      case g1 => simpa only [ppm1_seq] using hc.1
      case g2 => simpa only [ppm1_seq] using hc.2
      case g3 =>
        simp only [ppm1_seq]
        injection h with h1
        rw [← h1]
    · rw [if_neg hc] at h
      obtain ⟨k, hk, hprev, h1, h2, hres⟩ :=
        ih (fast_powering_algorithm a i N) (i+1) res h
      refine ⟨k+1, by omega, ?prev, ?g1, ?g2, ?g3⟩
      case prev =>
        intro j hj
        cases j with
        | zero => simpa only [ppm1_seq] using hc
        | succ j =>
          rw [ppm1_seq_shift N a i j]
          exact hprev j (by omega)
      case g1 => rwa [ppm1_seq_shift N a i k]
      case g2 => rwa [ppm1_seq_shift N a i k]
      case g3 => rwa [ppm1_seq_shift N a i k]
/-- C4: `pollard_p_minus_one_factorization(N)` iterates `i = 2, ...` with
base `a = 2`, each step setting `a = a^i mod N` (the values `ppm1_a N k`)
and testing `d = gcd(a - 1, N)` (the values `ppm1_d N k`); it returns
`[d, N // d]` for the first `d` with `1 < d < N` (then `N % d = 0`), and
returns `None` ("no factor found") when the `range(2, 1000000)` bound
(999998 steps) is exhausted. -/
theorem pollard_p_minus_one_spec (N : Int) :
    (∀ k, k < 999998 →
      (∀ j, j < k → ¬(1 < ppm1_d N j ∧ ppm1_d N j < N)) →
      1 < ppm1_d N k → ppm1_d N k < N →
      pollard_p_minus_one_factorization N
        = some [ppm1_d N k, Int.fdiv N (ppm1_d N k)]) ∧
    (∀ res, pollard_p_minus_one_factorization N = some res →
      ∃ k, k < 999998 ∧ (∀ j, j < k → ¬(1 < ppm1_d N j ∧ ppm1_d N j < N)) ∧
        1 < ppm1_d N k ∧ ppm1_d N k < N ∧ N % ppm1_d N k = 0 ∧
        res = [ppm1_d N k, Int.fdiv N (ppm1_d N k)]) ∧
    ((∀ k, k < 999998 → ¬(1 < ppm1_d N k ∧ ppm1_d N k < N)) →
      pollard_p_minus_one_factorization N = none) := by
  refine ⟨?found, ?sound, ?exhausted⟩
  case found =>
    intro k hk hprev h1 h2
    exact ppm1_loop_found N 999998 2 2 k hk hprev h1 h2
  case sound =>
    intro res h
    obtain ⟨k, hk, hprev, h1, h2, hres⟩ := ppm1_loop_sound N 999998 2 2 res h
    refine ⟨k, hk, hprev, h1, h2, ?dvd, hres⟩
    case dvd =>
      have hdvd : ppm1_d N k ∣ N := by
        show (↑(Int.gcd (ppm1_a N k - 1) N) : Int) ∣ N
        exact Int.gcd_dvd_right
      exact Int.emod_eq_zero_of_dvd hdvd
  case exhausted =>
    intro h
    exact ppm1_loop_exhausted N 999998 2 2 h

/-- Witness for C4: `N = 91 = 7 * 13`; the step `i = 3` (index `k = 1`)
finds `gcd(63, 91) = 7` and the function returns `[7, 13]`. -/
theorem pollard_p_minus_one_spec_witness :
    pollard_p_minus_one_factorization 91 = some [7, 13] := by
  have h := (pollard_p_minus_one_spec 91).1 1 (by decide)
    (by decide) (by decide) (by decide)
  exact h
/-! ## Pollard's rho factorization (`src/factorization_methods.py`,
lines 91-108) -/

/-- The pseudorandom map `t -> (t^2 + 1) mod N` of Pollard's rho. -/
def rho_step (N t : Int) : Int := (t * t + 1) % N

/-- The `for i in range(1000000)` loop of `pollard_rho_factorization`:
apply the map once to `x`, twice to `y`, test `gcd(|y - x|, N)`. -/
def pollard_rho_loop (N x y : Int) : Nat → Option (List Int)
  | 0 => none
  | fuel+1 =>
    let x2 := rho_step N x
    let y2 := rho_step N (rho_step N y)
    let g := greatest_common_divisor (absolute_value (y2 - x2)) N
    if 1 < g ∧ g < N then some [g, Int.fdiv N g]
    else pollard_rho_loop N x2 y2 fuel

/-- `pollard_rho_factorization(N)`: start `x = 1`, `y = 2`, at most
1,000,000 rounds; `none` is the Python `None` (falling off the end after
printing "maximum number of iterations"). -/
def pollard_rho_factorization (N : Int) : Option (List Int) :=
  pollard_rho_loop N 1 2 1000000

/-- The tortoise sequence: `x` after `k` rounds. -/
def rho_x (N : Int) : Nat → Int
  | 0 => 1
  | k+1 => rho_step N (rho_x N k)

/-- The hare sequence: `y` after `k` rounds. -/
def rho_y (N : Int) : Nat → Int
  | 0 => 2
  | k+1 => rho_step N (rho_step N (rho_y N k))

/-- The gcd tested at round `k ≥ 1`. -/
def rho_g (N : Int) (k : Nat) : Int :=
  greatest_common_divisor (absolute_value (rho_y N k - rho_x N k)) N

theorem rho_loop_found (N : Int) :
    ∀ (fuel j k : Nat), j < k → k ≤ j + fuel →
      (∀ m, j < m → m < k → ¬(1 < rho_g N m ∧ rho_g N m < N)) →
      1 < rho_g N k → rho_g N k < N →
      pollard_rho_loop N (rho_x N j) (rho_y N j) fuel
        = some [rho_g N k, Int.fdiv N (rho_g N k)] := by
  intro fuel
  induction fuel with
  | zero => intro j k h1 h2 _ _ _; omega
  | succ fuel ih =>
    intro j k hjk hkf hprev h1 h2
    by_cases heq : k = j + 1
    · subst heq
      have hg1 : 1 < greatest_common_divisor
          (absolute_value (rho_step N (rho_step N (rho_y N j))
            - rho_step N (rho_x N j))) N := by
        simpa only [rho_g, rho_y, rho_x] using h1
      have hg2 : greatest_common_divisor
          (absolute_value (rho_step N (rho_step N (rho_y N j))
            - rho_step N (rho_x N j))) N < N := by
        simpa only [rho_g, rho_y, rho_x] using h2
      simp only [pollard_rho_loop]
      rw [if_pos (And.intro hg1 hg2)]
      simp only [rho_g, rho_y, rho_x]
    · have hj1k : j + 1 < k := by omega
      have h0 := hprev (j+1) (by omega) hj1k
      have h0b : ¬(1 < greatest_common_divisor
            (absolute_value (rho_step N (rho_step N (rho_y N j))
              - rho_step N (rho_x N j))) N ∧
          greatest_common_divisor
            (absolute_value (rho_step N (rho_step N (rho_y N j))
              - rho_step N (rho_x N j))) N < N) := by
        simpa only [rho_g, rho_y, rho_x] using h0
      simp only [pollard_rho_loop]
      rw [if_neg h0b]
      have hres := ih (j+1) k hj1k (by omega)
        (fun m hm1 hm2 => hprev m (by omega) hm2) h1 h2
      simpa only [rho_x, rho_y] using hres

theorem rho_loop_exhausted (N : Int) :
    ∀ (fuel j : Nat),
      (∀ m, j < m → m ≤ j + fuel → ¬(1 < rho_g N m ∧ rho_g N m < N)) →
      pollard_rho_loop N (rho_x N j) (rho_y N j) fuel = none := by
  intro fuel
  induction fuel with
  | zero => intro j _; rfl
  | succ fuel ih =>
    intro j h
    have h0 := h (j+1) (by omega) (by omega)
    have h0b : ¬(1 < greatest_common_divisor
          (absolute_value (rho_step N (rho_step N (rho_y N j))
            - rho_step N (rho_x N j))) N ∧
        greatest_common_divisor
          (absolute_value (rho_step N (rho_step N (rho_y N j))
            - rho_step N (rho_x N j))) N < N) := by
      simpa only [rho_g, rho_y, rho_x] using h0
    simp only [pollard_rho_loop]
    rw [if_neg h0b]
    have hres := ih (j+1) (fun m hm1 hm2 => h m (by omega) (by omega))
    simpa only [rho_x, rho_y] using hres

theorem rho_loop_sound (N : Int) :
    ∀ (fuel j : Nat) (res : List Int),
      pollard_rho_loop N (rho_x N j) (rho_y N j) fuel = some res →
      ∃ k, j < k ∧ k ≤ j + fuel ∧
        (∀ m, j < m → m < k → ¬(1 < rho_g N m ∧ rho_g N m < N)) ∧
        1 < rho_g N k ∧ rho_g N k < N ∧
        res = [rho_g N k, Int.fdiv N (rho_g N k)] := by
  intro fuel
  induction fuel with
  | zero => intro j res h; simp [pollard_rho_loop] at h
  | succ fuel ih =>
    intro j res h
    simp only [pollard_rho_loop] at h
    by_cases hc : 1 < greatest_common_divisor
          (absolute_value (rho_step N (rho_step N (rho_y N j))
            - rho_step N (rho_x N j))) N ∧
        greatest_common_divisor
          (absolute_value (rho_step N (rho_step N (rho_y N j))
            - rho_step N (rho_x N j))) N < N
    · rw [if_pos hc] at h
      refine ⟨j+1, by omega, by omega, by omega, ?g1, ?g2, ?g3⟩
      case g1 => simpa only [rho_g, rho_y, rho_x] using hc.1
      case g2 => simpa only [rho_g, rho_y, rho_x] using hc.2
      case g3 =>
        injection h with h1
        simp only [rho_g, rho_y, rho_x]
        rw [← h1]
    · rw [if_neg hc] at h
      have h2 : pollard_rho_loop N (rho_x N (j+1)) (rho_y N (j+1)) fuel
          = some res := by
        simpa only [rho_x, rho_y] using h
      obtain ⟨k, hk1, hk2, hprev, hg1, hg2, hres⟩ := ih (j+1) res h2
      refine ⟨k, by omega, by omega, ?prev, hg1, hg2, hres⟩
      case prev =>
        intro m hm1 hm2
        by_cases hmj : m = j + 1
        · subst hmj
          simpa only [rho_g, rho_y, rho_x] using hc
        · exact hprev m (by omega) hm2

/-- C5: `pollard_rho_factorization(N)` starts from `x = 1, y = 2`, each
round applies `t -> (t^2+1) mod N` once to `x` (sequence `rho_x`) and twice
to `y` (sequence `rho_y`) and tests `g = gcd(|y - x|, N)` (sequence
`rho_g`); it returns `[g, N // g]` for the first round `k` (within the
1,000,000-round ceiling) whose `g` satisfies `1 < g < N` (then `N % g = 0`),
and returns `None` ("no factor found") at exhaustion. -/
theorem pollard_rho_spec (N : Int) :
    (∀ k, 1 ≤ k → k ≤ 1000000 →
      (∀ m, 1 ≤ m → m < k → ¬(1 < rho_g N m ∧ rho_g N m < N)) →
      1 < rho_g N k → rho_g N k < N →
      pollard_rho_factorization N = some [rho_g N k, Int.fdiv N (rho_g N k)]) ∧
    (∀ res, pollard_rho_factorization N = some res →
      ∃ k, 1 ≤ k ∧ k ≤ 1000000 ∧
        (∀ m, 1 ≤ m → m < k → ¬(1 < rho_g N m ∧ rho_g N m < N)) ∧
        1 < rho_g N k ∧ rho_g N k < N ∧ N % rho_g N k = 0 ∧
        res = [rho_g N k, Int.fdiv N (rho_g N k)]) ∧
    ((∀ m, 1 ≤ m → m ≤ 1000000 → ¬(1 < rho_g N m ∧ rho_g N m < N)) →
      pollard_rho_factorization N = none) := by
  refine ⟨?found, ?sound, ?exhausted⟩
  case found =>
    intro k hk1 hk2 hprev h1 h2
    exact rho_loop_found N 1000000 0 k (by omega) (by omega)
      (fun m hm1 hm2 => hprev m (by omega) hm2) h1 h2
  case sound =>
    intro res h
    obtain ⟨k, hk1, hk2, hprev, h1, h2, hres⟩ :=
      rho_loop_sound N 1000000 0 res h
    refine ⟨k, by omega, by omega,
      (fun m hm1 hm2 => hprev m (by omega) hm2), h1, h2, ?dvd, hres⟩
    case dvd =>
      have hdvd : rho_g N k ∣ N := by
        show (↑(Int.gcd (absolute_value (rho_y N k - rho_x N k)) N) : Int) ∣ N
        exact Int.gcd_dvd_right
      exact Int.emod_eq_zero_of_dvd hdvd
  case exhausted =>
    intro h
    exact rho_loop_exhausted N 1000000 0
      (fun m hm1 hm2 => h m (by omega) (by omega))

/-- Witness for C5: `N = 8051`; round 2 has `x = 5`, `y = 7474`,
`gcd(7469, 8051) = 97` and the function returns `[97, 83]`. -/
theorem pollard_rho_spec_witness :
    pollard_rho_factorization 8051 = some [97, 83] := by
  have h := (pollard_rho_spec 8051).1 2 (by decide) (by decide)
    (by decide) (by decide) (by decide)
  exact h
/-! ## Modular inverse (modelled from the spec, 4.1) -/

/-- Extended Euclidean recursion carrying Bezout coefficients; state is
`(r0, r1, s0, s1, t0, t1)` with invariants `s*a + t*m = r`. -/
def egcd_aux : Nat → Nat → Nat → Int → Int → Int → Int → Nat × Int × Int
  | 0, r0, _, s0, _, t0, _ => (r0, s0, t0)
  | fuel+1, r0, r1, s0, s1, t0, t1 =>
    if r1 = 0 then (r0, s0, t0)
    else
      egcd_aux fuel r1 (r0 % r1) s1 (s0 - ((r0 / r1 : Nat) : Int) * s1)
        t1 (t0 - ((r0 / r1 : Nat) : Int) * t1)

theorem egcd_aux_gcd : ∀ (fuel r0 r1 : Nat) (s0 s1 t0 t1 : Int),
    r1 ≤ fuel → (egcd_aux fuel r0 r1 s0 s1 t0 t1).1 = Nat.gcd r0 r1 := by
  intro fuel
  induction fuel with
  | zero =>
    intro r0 r1 s0 s1 t0 t1 h
    have : r1 = 0 := by omega
    subst this
    simp [egcd_aux]
  | succ fuel ih =>
    intro r0 r1 s0 s1 t0 t1 h
    by_cases h1 : r1 = 0
    · subst h1; simp [egcd_aux]
    · have hmod : r0 % r1 < r1 := Nat.mod_lt _ (by omega)
      simp only [egcd_aux, if_neg h1]
      rw [ih r1 (r0 % r1) _ _ _ _ (by omega)]
      rw [Nat.gcd_comm r0 r1, Nat.gcd_rec r1 r0, Nat.gcd_comm (r0 % r1) r1]

theorem egcd_aux_bezout (a m : Int) :
    ∀ (fuel r0 r1 : Nat) (s0 s1 t0 t1 : Int),
      s0 * a + t0 * m = (r0 : Int) → s1 * a + t1 * m = (r1 : Int) →
      (egcd_aux fuel r0 r1 s0 s1 t0 t1).2.1 * a +
          (egcd_aux fuel r0 r1 s0 s1 t0 t1).2.2 * m
        = ((egcd_aux fuel r0 r1 s0 s1 t0 t1).1 : Int) := by
  intro fuel
  induction fuel with
  | zero =>
    intro r0 r1 s0 s1 t0 t1 h0 h1
    simpa [egcd_aux] using h0
  | succ fuel ih =>
    intro r0 r1 s0 s1 t0 t1 h0 h1
    by_cases hz : r1 = 0
    · subst hz
      simpa [egcd_aux] using h0
    · simp only [egcd_aux, if_neg hz]
      apply ih
      · exact h1
      · have hmd : r0 % r1 + r0 / r1 * r1 = r0 := Nat.mod_add_div' r0 r1
        have hzz : ((r0 % r1 : Nat) : Int)
            + ((r0 / r1 : Nat) : Int) * ((r1 : Nat) : Int) = ((r0 : Nat) : Int) := by
          exact_mod_cast congrArg (fun x : Nat => (x : Int)) hmd
        linear_combination h0 - ((r0 / r1 : Nat) : Int) * h1 - hzz

/-- Modelled from the spec: `find_modular_inverse(a, m)` returns the inverse
of `a` modulo `m`, failing (`NoInverseError`, spec 4.1) when
`gcd(a, m) != 1`. -/
def find_modular_inverse (a m : Nat) : Option Nat :=
  let r := egcd_aux (m + 1) a m 1 0 0 1
  if r.1 = 1 then some ((r.2.1 % (m : Int)).toNat) else none

theorem find_modular_inverse_correct (a m : Nat) (hm : 2 ≤ m)
    (hg : Nat.gcd a m = 1) :
    ∃ e, find_modular_inverse a m = some e ∧ (e * a) % m = 1 ∧ e < m := by
  have hgc : (egcd_aux (m + 1) a m 1 0 0 1).1 = 1 := by
    rw [egcd_aux_gcd (m+1) a m 1 0 0 1 (by omega)]
    exact hg
  have hbez := egcd_aux_bezout (a : Int) (m : Int) (m+1) a m 1 0 0 1
    (by ring) (by ring)
  rw [hgc] at hbez
  push_cast at hbez
  set s := (egcd_aux (m + 1) a m 1 0 0 1).2.1 with hsdef
  set t := (egcd_aux (m + 1) a m 1 0 0 1).2.2 with htdef
  have hmpos : (0 : Int) < (m : Int) := by exact_mod_cast (by omega : 0 < m)
  have hnonneg : 0 ≤ s % (m : Int) := Int.emod_nonneg s (by omega)
  have hlt : s % (m : Int) < (m : Int) := Int.emod_lt_of_pos s hmpos
  refine ⟨(s % (m : Int)).toNat, ?inv, ?eq1, ?ltm⟩
  case inv =>
    simp only [find_modular_inverse]
    rw [if_pos hgc]
  case eq1 =>
    have hcast : (((s % (m : Int)).toNat : Int)) = s % (m : Int) :=
      Int.toNat_of_nonneg hnonneg
    have hz : ((((s % (m : Int)).toNat * a : Nat)) : Int) % (m : Int) = 1 := by
      push_cast
      rw [hcast]
      calc s % (m : Int) * (a : Int) % (m : Int)
          = s * (a : Int) % (m : Int) := by
            rw [Int.mul_emod, Int.emod_emod_of_dvd s dvd_rfl]
            rw [← Int.mul_emod]
      _ = (1 + (-t) * (m : Int)) % (m : Int) := by
            congr 1
            linarith [hbez]
      _ = 1 % (m : Int) := Int.add_mul_emod_self
      _ = 1 := Int.emod_eq_of_lt (by omega) (by exact_mod_cast (by omega : 1 < m))
    exact_mod_cast hz
  case ltm =>
    omega
/-! ## RSA key generation (`src/modern_ciphers.py`) -/

/-- The `while q == p: q = miller_rabin_get_prime(...)` resampling loop:
`q` is the current candidate, `k` the index of the next oracle call,
`fuel` the remaining redraws the model allows; returns the accepted `q`
together with the next unused call index. -/
def resample_q (p : Nat) (draw : Nat → Nat) : Nat → Nat → Nat → Option (Nat × Nat)
  | q, k, 0 => if q = p then none else some (q, k)
  | q, k, fuel+1 =>
    if q = p then resample_q p draw (draw k) (k+1) fuel else some (q, k)

/-- `generate_rsa_public_key(number_of_bits, public_exponent)` from
`src/modern_ciphers.py` (lines 27-56).  The Primality Oracle
`miller_rabin_get_prime` (spec 6: returns a prime `p` with
`low <= p < high`) is modelled as the oracle `mr`, indexed by call number
and then the two bounds; `fuel` bounds the resampling loop. -/
def generate_rsa_public_key (mr : Nat → Nat → Nat → Nat) (fuel : Nat)
    (number_of_bits public_exponent : Int) :
    Option (Except String (List Int)) :=
  if number_of_bits < 2 then
    some (.error "number_of_bits must be a positive integer greater than 1.")
  else if public_exponent < 1 then
    some (.error "public_exponent must be a positive integer.")
  else
    let b := number_of_bits.toNat
    let p := mr 0 (2 ^ (b - 1)) (2 ^ b)
    match resample_q p (fun k => mr k (2 ^ (b - 1)) (2 ^ b))
        (mr 1 (2 ^ (b - 1)) (2 ^ b)) 2 fuel with
    | none => none
    | some (q, _) => some (.ok [public_exponent, ((p * q : Nat) : Int)])

/-- Lines 85-97 of `src/modern_ciphers.py`: the `weak_primes` branch has
already stored its primes in `pq0` (or `(none, none)` if skipped);
the `weak_decryption_key` branch *reassigns* `p` and `q`, draws a small
`d` and inverts it mod `(p-1)*(q-1)`, otherwise `e = 65537`.  The result
carries `(e, p?, q?)` where `p?`/`q?` model the possibly-unbound locals. -/
def bad_key_stage1 (mr : Nat → Nat → Nat → Nat) (fuel b : Nat)
    (weak_decryption_key : Bool) (pq0 : Option Nat × Option Nat) :
    Option (Except PyError (Nat × Option Nat × Option Nat)) :=
  if weak_decryption_key then
    let p := mr 2 (2 ^ (b - 1)) (2 ^ b)
    match resample_q p (fun k => mr k (2 ^ (b - 1)) (2 ^ b)) p 3 fuel with
    | none => none
    | some (q, k2) =>
      let d := mr k2 2 (integer_sqrt (integer_sqrt (p * q)) / 4 - 1)
      match find_modular_inverse d ((p - 1) * (q - 1)) with
      | none => some (.error .noInverseError)
      | some e => some (.ok (e, some p, some q))
  else
    some (.ok (65537, pq0.1, pq0.2))

/-- `generate_bad_rsa_public_key(weak_primes, weak_decryption_key,
weak_modulus, number_of_bits)` from `src/modern_ciphers.py` (lines 58-104).
Oracle calls are indexed by call site: `mr 0`/`mr 1` for the `weak_primes`
branch, `mr 2`/`mr 3 ...` for the `weak_decryption_key` branch's `p` and
resampled `q`, the next index for `d`; `rint 0`/`rint 1` for the two
`randint` calls of the `weak_modulus` branch. -/
def generate_bad_rsa_public_key (mr rint : Nat → Nat → Nat → Nat)
    (fuel : Nat) (weak_primes weak_decryption_key weak_modulus : Bool)
    (number_of_bits : Int) : Option (Except PyError (List Nat)) :=
  if number_of_bits < 2 then
    some (.error (.valueError
      "number_of_bits must be a positive integer greater than 1."))
  else
    let b := number_of_bits.toNat
    let pq0 : Option Nat × Option Nat :=
      if weak_primes then
        let p := mr 0 (2 ^ (b - 1)) (2 ^ b)
        (some p, some (mr 1 p (p + 1000000000)))
      else (none, none)
    match bad_key_stage1 mr fuel b weak_decryption_key pq0 with
    | none => none
    | some (.error err) => some (.error err)
    | some (.ok (e, popt, qopt)) =>
      if weak_modulus then
        some (.ok [e, rint 0 2 (2 ^ b) * rint 1 2 (2 ^ b)])
      else
        match popt, qopt with
        | some p, some q => some (.ok [e, p * q])
        | none, _ => some (.error (.unboundLocalError "p"))
        | some _, none => some (.error (.unboundLocalError "q"))

theorem resample_q_sound (p : Nat) (draw : Nat → Nat) (P : Nat → Prop) :
    ∀ (fuel q0 k q k2 : Nat), P q0 → (∀ j, P (draw j)) →
      resample_q p draw q0 k fuel = some (q, k2) → P q ∧ q ≠ p := by
  intro fuel
  induction fuel with
  | zero =>
    intro q0 k q k2 h0 hall h
    by_cases hqp : q0 = p
    · simp [resample_q, hqp] at h
    · simp only [resample_q, if_neg hqp] at h
      injection h with h1
      injection h1 with h2 h3
      subst h2
      exact ⟨h0, hqp⟩
  | succ fuel ih =>
    intro q0 k q k2 h0 hall h
    by_cases hqp : q0 = p
    · simp only [resample_q, if_pos hqp] at h
      exact ih (draw k) (k+1) q k2 (hall k) hall h
    · simp only [resample_q, if_neg hqp] at h
      injection h with h1
      injection h1 with h2 h3
      subst h2
      exact ⟨h0, hqp⟩

theorem resample_q_first (p : Nat) (draw : Nat → Nat) (k fuel : Nat)
    (h : draw k ≠ p) :
    resample_q p draw p (k) (fuel+1) = some (draw k, k+1) := by
  simp only [resample_q, if_pos rfl]
  cases fuel with
  | zero => simp [resample_q, if_neg h]
  | succ fuel => simp [resample_q, if_neg h]
/-- C6: `generate_rsa_public_key` rejects `number_of_bits < 2` and
non-positive `public_exponent` with `ValueError`; otherwise — given the
Primality Oracle's contract that each draw is a prime in
`[2^(bits-1), 2^bits)` — any returned key is `[e, p*q]` for two distinct
primes `p != q` in that range (`q` resampled on collision with `p`). -/
theorem generate_rsa_public_key_spec (mr : Nat → Nat → Nat → Nat)
    (fuel : Nat) (bits e : Int) :
    (bits < 2 → generate_rsa_public_key mr fuel bits e
      = some (.error "number_of_bits must be a positive integer greater than 1.")) ∧
    (2 ≤ bits → e < 1 → generate_rsa_public_key mr fuel bits e
      = some (.error "public_exponent must be a positive integer.")) ∧
    (2 ≤ bits → 1 ≤ e →
      (∀ k, Nat.Prime (mr k (2 ^ (bits.toNat - 1)) (2 ^ bits.toNat)) ∧
        2 ^ (bits.toNat - 1) ≤ mr k (2 ^ (bits.toNat - 1)) (2 ^ bits.toNat) ∧
        mr k (2 ^ (bits.toNat - 1)) (2 ^ bits.toNat) < 2 ^ bits.toNat) →
      ∀ res, generate_rsa_public_key mr fuel bits e = some (.ok res) →
        ∃ p q, res = [e, ((p * q : Nat) : Int)] ∧
          Nat.Prime p ∧ Nat.Prime q ∧ p ≠ q ∧
          2 ^ (bits.toNat - 1) ≤ p ∧ p < 2 ^ bits.toNat ∧
          2 ^ (bits.toNat - 1) ≤ q ∧ q < 2 ^ bits.toNat) := by
  refine ⟨?rej1, ?rej2, ?ok⟩
  case rej1 =>
    intro h
    simp only [generate_rsa_public_key, if_pos h]
  case rej2 =>
    intro h1 h2
    simp only [generate_rsa_public_key]
    rw [if_neg (by omega), if_pos h2]
  case ok =>
    intro h1 h2 horacle res hres
    simp only [generate_rsa_public_key] at hres
    rw [if_neg (by omega), if_neg (by omega)] at hres
    cases hrs : resample_q (mr 0 (2 ^ (bits.toNat - 1)) (2 ^ bits.toNat))
        (fun k => mr k (2 ^ (bits.toNat - 1)) (2 ^ bits.toNat))
        (mr 1 (2 ^ (bits.toNat - 1)) (2 ^ bits.toNat)) 2 fuel with
    | none => rw [hrs] at hres; simp at hres
    | some qk =>
      obtain ⟨q, k2⟩ := qk
      rw [hrs] at hres
      have hq := resample_q_sound (mr 0 (2 ^ (bits.toNat - 1)) (2 ^ bits.toNat))
        (fun k => mr k (2 ^ (bits.toNat - 1)) (2 ^ bits.toNat))
        (fun v => Nat.Prime v ∧ 2 ^ (bits.toNat - 1) ≤ v ∧ v < 2 ^ bits.toNat)
        fuel (mr 1 (2 ^ (bits.toNat - 1)) (2 ^ bits.toNat)) 2 q k2
        (horacle 1) (fun j => horacle j) hrs
      refine ⟨mr 0 (2 ^ (bits.toNat - 1)) (2 ^ bits.toNat), q, ?res,
        (horacle 0).1, hq.1.1, ?ne, (horacle 0).2.1, (horacle 0).2.2,
        hq.1.2.1, hq.1.2.2⟩
      case res =>
        injection hres with h3
        injection h3 with h4
        rw [← h4]
      case ne => exact fun hc => hq.2 hc.symm
  
/-- Witness for C6: a 4-bit key drawn from the oracle `11, 13, 13, ...`
is `[3, 143]` with `143 = 11 * 13`. -/
theorem generate_rsa_public_key_spec_witness :
    ∃ p q, ([(3 : Int), ((143 : Nat) : Int)] : List Int)
        = [3, ((p * q : Nat) : Int)] ∧
      Nat.Prime p ∧ Nat.Prime q ∧ p ≠ q ∧
      2 ^ (((4 : Int)).toNat - 1) ≤ p ∧ p < 2 ^ ((4 : Int)).toNat ∧
      2 ^ (((4 : Int)).toNat - 1) ≤ q ∧ q < 2 ^ ((4 : Int)).toNat :=
  (generate_rsa_public_key_spec (fun k _ _ => if k = 0 then 11 else 13)
      1 4 3).2.2
    (by decide) (by decide)
    (fun k => by
      cases k with
      | zero => exact ⟨by decide, by decide, by decide⟩
      | succ k =>
        have hik : (k + 1 = 0) = False := by simp
        simp only [hik, if_false]
        exact ⟨by decide, by decide, by decide⟩)
    [3, ((143 : Nat) : Int)] rfl
/-- C10: with all three weakness flags `False` and any valid bit length,
`generate_bad_rsa_public_key` passes validation, never assigns `p`/`q`,
and the final `p * q` raises `UnboundLocalError` instead of returning a
key. -/
theorem generate_bad_rsa_no_flags (mr rint : Nat → Nat → Nat → Nat)
    (fuel : Nat) (bits : Int) (hbits : 2 ≤ bits) :
    generate_bad_rsa_public_key mr rint fuel false false false bits
      = some (.error (.unboundLocalError "p")) := by
  simp only [generate_bad_rsa_public_key, bad_key_stage1]
  rw [if_neg (by omega)]
  simp

/-- Witness for C10. -/
theorem generate_bad_rsa_no_flags_witness :
    generate_bad_rsa_public_key (fun _ _ _ => 0) (fun _ _ _ => 0) 0
        false false false 1024
      = some (.error (.unboundLocalError "p")) :=
  generate_bad_rsa_no_flags (fun _ _ _ => 0) (fun _ _ _ => 0) 0 1024
    (by decide)

/-- C2 (divergence witness): when `weak_decryption_key` is requested, the
result of `generate_bad_rsa_public_key` is identical whether or not
`weak_primes` was also requested — the `weak_decryption_key` branch
reassigns `p` and `q` from the full range, so the close prime pair drawn
by the `weak_primes` branch is discarded and that weakness is silently
overridden. -/
theorem generate_bad_rsa_weak_primes_overridden
    (mr rint : Nat → Nat → Nat → Nat) (fuel : Nat) (wm : Bool) (bits : Int) :
    generate_bad_rsa_public_key mr rint fuel true true wm bits
      = generate_bad_rsa_public_key mr rint fuel false true wm bits := rfl
/-- C7: with `weak_decryption_key` set (and `weak_modulus` unset, so the
modulus built from the branch's primes is the one returned), the drawn
decryption exponent `d` lies in `[2, isqrt(isqrt(N))/4]` — i.e.
`[2, floor(N^(1/4)/4)]` for the returned modulus `N = p*q` — and the
returned public exponent satisfies `e * d = 1 (mod (p-1)*(q-1))`.
`p`, `q`, `d` name the oracle draws of the branch; the bounds on `d` and
the coprimality are the Primality Oracle's contract for its range
`[2, isqrt(isqrt(p*q))/4 - 1)`. -/
theorem generate_bad_rsa_weak_decryption_key_spec
    (mr rint : Nat → Nat → Nat → Nat) (fuel : Nat) (wp : Bool) (bits : Int)
    (p q d : Nat)
    (hbits : 2 ≤ bits) (hfuel : 1 ≤ fuel)
    (hp : mr 2 (2 ^ (bits.toNat - 1)) (2 ^ bits.toNat) = p)
    (hq : mr 3 (2 ^ (bits.toNat - 1)) (2 ^ bits.toNat) = q)
    (hqp : q ≠ p)
    (hd : mr 4 2 (integer_sqrt (integer_sqrt (p * q)) / 4 - 1) = d)
    (hd2 : 2 ≤ d)
    (hdlt : d < integer_sqrt (integer_sqrt (p * q)) / 4 - 1)
    (hphi : 2 ≤ (p - 1) * (q - 1))
    (hgcd : Nat.gcd d ((p - 1) * (q - 1)) = 1) :
    ∃ e, generate_bad_rsa_public_key mr rint fuel wp true false bits
        = some (.ok [e, p * q]) ∧
      2 ≤ d ∧ d ≤ integer_sqrt (integer_sqrt (p * q)) / 4 ∧
      (e * d) % ((p - 1) * (q - 1)) = 1 := by
  obtain ⟨e, he, he1, _⟩ :=
    find_modular_inverse_correct d ((p - 1) * (q - 1)) hphi hgcd
  refine ⟨e, ?main, hd2, by omega, he1⟩
  case main =>
    obtain ⟨f, rfl⟩ : ∃ f, fuel = f + 1 := ⟨fuel - 1, by omega⟩
    have hresample : resample_q
        (mr 2 (2 ^ (bits.toNat - 1)) (2 ^ bits.toNat))
        (fun k => mr k (2 ^ (bits.toNat - 1)) (2 ^ bits.toNat))
        (mr 2 (2 ^ (bits.toNat - 1)) (2 ^ bits.toNat)) 3 (f + 1)
        = some (q, 4) := by
      have hne : (fun k => mr k (2 ^ (bits.toNat - 1)) (2 ^ bits.toNat)) 3
          ≠ mr 2 (2 ^ (bits.toNat - 1)) (2 ^ bits.toNat) := by
        show mr 3 (2 ^ (bits.toNat - 1)) (2 ^ bits.toNat)
          ≠ mr 2 (2 ^ (bits.toNat - 1)) (2 ^ bits.toNat)
        rw [hp, hq]
        exact hqp
      rw [resample_q_first _ _ 3 f hne]
      show some (mr 3 (2 ^ (bits.toNat - 1)) (2 ^ bits.toNat), 4) = some (q, 4)
      rw [hq]
    simp only [generate_bad_rsa_public_key, bad_key_stage1]
    rw [if_neg (by omega), if_true, hresample]
    simp only [hp, hd, he]
    rfl

/-- Witness for C7: oracle draws `p = 521`, `q = 641`, `d = 3`
(`N = 333961`, `isqrt(isqrt N)/4 - 1 = 5`, `phi = 332800`, `gcd(3, phi) = 1`). -/
theorem generate_bad_rsa_weak_decryption_key_spec_witness :
    ∃ e, generate_bad_rsa_public_key
        (fun k _ _ => if k = 2 then 521 else if k = 3 then 641 else 3)
        (fun _ _ _ => 0) 1 false true false 10
        = some (.ok [e, 521 * 641]) ∧
      2 ≤ 3 ∧ 3 ≤ integer_sqrt (integer_sqrt (521 * 641)) / 4 ∧
      (e * 3) % ((521 - 1) * (641 - 1)) = 1 :=
  generate_bad_rsa_weak_decryption_key_spec
    (fun k _ _ => if k = 2 then 521 else if k = 3 then 641 else 3)
    (fun _ _ _ => 0) 1 false 10 521 641 3
    (by decide) (by decide) rfl rfl (by decide) rfl (by decide) (by decide)
    (by decide) (by decide)
